import Mathlib

/-!
Verification of the bidi/hidden-Unicode scan script
(`scripts/security/bidi_scan.mjs`).

Modelling conventions of the shallow embedding:

* A JavaScript string is a list of UTF-16 code units, modelled as `List Nat`
  (each element intended `< 2^16`; matching and indexing in the script are
  per code unit, exactly as in JavaScript).
* File contents arrive as `Option (List Nat)`: `none` models a
  `readFileSync` failure (unreadable file), `some units` a successful read
  of the decoded text.
* The global regex `unsafePattern` carries one piece of mutable state,
  `lastIndex : Nat`; the script resets it to `0` before each per-file scan
  and a terminating `exec` loop leaves it at `0`.  The stateful wrappers
  `scanFileS` / `mainLoopS` thread that state explicitly.
-/

/-- The `UNSAFE_CHARS` object of the script: an insertion-ordered mapping
from code unit to human-readable name. -/
def UNSAFE_CHARS : List (Nat × String) :=
  [ (0x202A, "LRE (Left-to-Right Embedding)")
  , (0x202B, "RLE (Right-to-Left Embedding)")
  , (0x202C, "PDF (Pop Directional Formatting)")
  , (0x202D, "LRO (Left-to-Right Override)")
  , (0x202E, "RLO (Right-to-Left Override)")
  , (0x2066, "LRI (Left-to-Right Isolate)")
  , (0x2067, "RLI (Right-to-Left Isolate)")
  , (0x2068, "FSI (First Strong Isolate)")
  , (0x2069, "PDI (Pop Directional Isolate)")
  , (0x200B, "ZWSP (Zero Width Space)")
  , (0x200C, "ZWNJ (Zero Width Non-Joiner)")
  , (0x200D, "ZWJ (Zero Width Joiner)")
  , (0x200E, "LRM (Left-to-Right Mark)")
  , (0x200F, "RLM (Right-to-Left Mark)")
  , (0xFEFF, "BOM/ZWNBSP (Zero Width No-Break Space)") ]

/-- `Object.keys(UNSAFE_CHARS)`, from which the alternation regex
`unsafePattern` is built. -/
def unsafeKeys : List Nat := UNSAFE_CHARS.map Prod.fst

/-- Whether `unsafePattern` matches at a given code unit: the regex is the
alternation of the fifteen single-code-unit keys, so a match at a position
is exactly membership of that unit in `unsafeKeys`. -/
def isUnsafe (c : Nat) : Bool := unsafeKeys.contains c

/-- JavaScript `str.split('\n')` specialised to the newline code unit 10:
splitting the empty string yields `[""]`, a trailing newline yields a
trailing empty segment. -/
def jsSplitNl : List Nat → List (List Nat)
  | [] => [[]]
  | c :: t =>
    match jsSplitNl t with
    | [] => [[]]
    | s :: rest => if c = 10 then [] :: s :: rest else (c :: s) :: rest

/-- `Nat.digitChar`-style lowercase hex digits of `n.toString(16)`. -/
def jsHexLower (n : Nat) : List Char := Nat.toDigits 16 n

/-- ASCII uppercasing of `String.prototype.toUpperCase` restricted to the
characters that can occur in a hex string. -/
def jsToUpperAscii (l : List Char) : List Char :=
  l.map fun ch => if 97 ≤ ch.toNat ∧ ch.toNat ≤ 122 then Char.ofNat (ch.toNat - 32) else ch

/-- `padStart(4, '0')` on a list of characters. -/
def jsPadStart4 (l : List Char) : List Char :=
  if l.length < 4 then List.replicate (4 - l.length) '0' ++ l else l

/-- The script's codepoint label:
`'U+' + char.charCodeAt(0).toString(16).toUpperCase().padStart(4, '0')`. -/
def jsCodepointLabel (c : Nat) : String :=
  "U+" ++ String.mk (jsPadStart4 (jsToUpperAscii (jsHexLower c)))

/-- One finding object pushed by `scanFile`: matched code unit, codepoint
label, name looked up in `UNSAFE_CHARS` (`none` models JavaScript
`undefined` for an absent key), code-unit offset, 1-based line. -/
structure Finding where
  char : Nat
  codepoint : String
  name : Option String
  position : Nat
  line : Nat
deriving DecidableEq, Repr

/-- The finding built for a match of unit `c` at offset `i` of content
`full`: the line number is `content.substring(0, i).split('\n').length`. -/
def mkFinding (full : List Nat) (c : Nat) (i : Nat) : Finding :=
  { char := c
  , codepoint := jsCodepointLabel c
  , name := UNSAFE_CHARS.lookup c
  , position := i
  , line := (jsSplitNl (full.take i)).length }

/-- The `exec` loop of `scanFile` over the suffix of `full` starting at
offset `i`: a single forward scan emitting a finding at every position
holding a catalogued code unit. -/
def scanFrom (full : List Nat) : List Nat → Nat → List Finding
  | [], _ => []
  | c :: rest, i =>
    if isUnsafe c then mkFinding full c i :: scanFrom full rest (i + 1)
    else scanFrom full rest (i + 1)

/-- `scanFile` on successfully decoded content. -/
def scanContent (content : List Nat) : List Finding :=
  scanFrom content content 0

/-- `scanFile`: a read/decode failure (`none`) is caught and yields the
empty finding list; otherwise the content is scanned. -/
def scanFile (content : Option (List Nat)) : List Finding :=
  match content with
  | none => []
  | some c => scanContent c

/-- `scanFile` with the regex state made explicit: on a read failure the
exception fires before `unsafePattern.lastIndex = 0` runs, so the inherited
state `st` is left unchanged; on success the scan resets the state and the
final failing `exec` leaves `lastIndex = 0`. -/
def scanFileS (content : Option (List Nat)) (st : Nat) : List Finding × Nat :=
  match content with
  | none => ([], st)
  | some c => (scanContent c, 0)

/-- The `for (const file of files)` loop of `main`, threading the regex
state: returns the report (insertion-ordered path/findings pairs, only
files with at least one finding), the running `totalFindings`, and the
final regex state. -/
def mainLoopS :
    List (String × Option (List Nat)) → Nat →
      List (String × List Finding) × Nat × Nat
  | [], st => ([], 0, st)
  | (path, content) :: rest, st =>
    let fs := scanFileS content st
    let r := mainLoopS rest fs.2
    if 0 < fs.1.length then ((path, fs.1) :: r.1, fs.1.length + r.2.1, r.2.2)
    else r

/-- The aggregated report `results` of a run (initial regex state 0, as at
process start). -/
def results (files : List (String × Option (List Nat))) :
    List (String × List Finding) :=
  (mainLoopS files 0).1

/-- The accumulated `totalFindings` of a run. -/
def totalFindings (files : List (String × Option (List Nat))) : Nat :=
  (mainLoopS files 0).2.1

/-- `process.exit(totalFindings > 0 ? 1 : 0)`. -/
def exitCode (files : List (String × Option (List Nat))) : Nat :=
  if 0 < totalFindings files then 1 else 0

/-- The fixed structured-report location `jsonPath`. -/
def reportPath : String := "docs/ops/reports/_tmp_bidi_scan.json"

/-- The file writes performed by `main` after the loop: a single
unconditional `writeFileSync(jsonPath, JSON.stringify(results, ...))`. -/
def emitWrites (files : List (String × Option (List Nat))) :
    List (String × List (String × List Finding)) :=
  [(reportPath, results files)]

/-- The catalogue as written in the specification's table (§6), stated
independently for comparison with the script's `UNSAFE_CHARS`. -/
def specCatalogue : List (Nat × String) :=
  [ (0x202A, "LRE (Left-to-Right Embedding)")
  , (0x202B, "RLE (Right-to-Left Embedding)")
  , (0x202C, "PDF (Pop Directional Formatting)")
  , (0x202D, "LRO (Left-to-Right Override)")
  , (0x202E, "RLO (Right-to-Left Override)")
  , (0x2066, "LRI (Left-to-Right Isolate)")
  , (0x2067, "RLI (Right-to-Left Isolate)")
  , (0x2068, "FSI (First Strong Isolate)")
  , (0x2069, "PDI (Pop Directional Isolate)")
  , (0x200B, "ZWSP (Zero Width Space)")
  , (0x200C, "ZWNJ (Zero Width Non-Joiner)")
  , (0x200D, "ZWJ (Zero Width Joiner)")
  , (0x200E, "LRM (Left-to-Right Mark)")
  , (0x200F, "RLM (Right-to-Left Mark)")
  , (0xFEFF, "BOM/ZWNBSP (Zero Width No-Break Space)") ]

/-! ### Characters vs UTF-16 code units (claim C5) -/

/-- The UTF-16 code units of a single Unicode scalar value: one unit for a
BMP codepoint, a surrogate pair for an astral one. -/
def utf16Units (c : Nat) : List Nat :=
  if c < 65536 then [c]
  else [0xD800 + (c - 65536) / 0x400, 0xDC00 + (c - 65536) % 0x400]

/-- The JavaScript string (code-unit sequence) obtained by decoding a file
whose text is the character sequence `cs`: the concatenation of each
character's UTF-16 units.  `readFileSync(path, 'utf-8')` produces exactly
this string for well-formed input. -/
def utf16Encode (cs : List Nat) : List Nat :=
  cs.flatMap utf16Units

/-! ### File-list parsing and label formatting (claim C10) -/

/-- The JavaScript whitespace predicate underlying `String.prototype.trim`
(ECMAScript WhiteSpace and LineTerminator code points). -/
def jsIsWhitespace (c : Nat) : Bool :=
  c == 9 || c == 10 || c == 11 || c == 12 || c == 13 || c == 32 || c == 160
    || c == 5760 || (decide (8192 ≤ c) && decide (c ≤ 8202)) || c == 8232
    || c == 8233 || c == 8239 || c == 8287 || c == 12288 || c == 65279

/-- `f.trim()`: whitespace stripped from both ends. -/
def jsTrim (s : List Nat) : List Nat :=
  ((s.dropWhile jsIsWhitespace).reverse.dropWhile jsIsWhitespace).reverse

/-- `getGitFiles` applied to the raw provider output:
`output.split('\n').filter(f => f.trim().length > 0)`. -/
def getGitFiles (output : List Nat) : List (List Nat) :=
  (jsSplitNl output).filter fun f => decide (0 < (jsTrim f).length)

/-- An uppercase hexadecimal digit (0-9, A-F). -/
def hexUpperDigit (n : Nat) : Char :=
  if n < 10 then Char.ofNat (48 + n) else Char.ofNat (55 + n)

/-- The label the claim demands for a finding on code unit `c`: `"U+"`
followed by exactly the four-digit uppercase hexadecimal of `c`. -/
def specLabel (c : Nat) : String :=
  "U+" ++ String.mk [hexUpperDigit (c / 4096 % 16), hexUpperDigit (c / 256 % 16),
    hexUpperDigit (c / 16 % 16), hexUpperDigit (c % 16)]

/-! ### Helper lemmas about the orchestrator -/

lemma scanFileS_fst (c : Option (List Nat)) (st : Nat) :
    (scanFileS c st).1 = scanFile c := by
  cases c <;> rfl

lemma mainLoopS_state_irrel (files : List (String × Option (List Nat))) :
    ∀ st1 st2, (mainLoopS files st1).1 = (mainLoopS files st2).1 ∧
      (mainLoopS files st1).2.1 = (mainLoopS files st2).2.1 := by
  induction files with
  | nil => intro st1 st2; exact ⟨rfl, rfl⟩
  | cons p rest ih =>
    intro st1 st2
    obtain ⟨path, content⟩ := p
    rcases ih (scanFileS content st1).2 (scanFileS content st2).2 with ⟨h1, h2⟩
    simp only [mainLoopS, scanFileS_fst]
    by_cases h : 0 < (scanFile content).length
    · simp only [h, if_true]
      refine ⟨?_, ?_⟩ <;> simp [h1, h2]
    · simp only [h, if_false]
      exact ⟨h1, h2⟩

lemma mainLoopS_total_eq_sum (files : List (String × Option (List Nat))) :
    ∀ st, (mainLoopS files st).2.1
      = (files.map fun p => (scanFile p.2).length).sum := by
  induction files with
  | nil => intro st; rfl
  | cons p rest ih =>
    intro st
    obtain ⟨path, content⟩ := p
    simp only [mainLoopS, scanFileS_fst, List.map_cons, List.sum_cons]
    by_cases h : 0 < (scanFile content).length
    · simp [h, ih]
    · simp only [h, if_false, ih]
      omega

lemma mainLoopS_total_zero (files : List (String × Option (List Nat))) :
    ∀ st, (mainLoopS files st).2.1 = 0 → (mainLoopS files st).1 = [] := by
  induction files with
  | nil => intro st _; rfl
  | cons p rest ih =>
    intro st h
    obtain ⟨path, content⟩ := p
    simp only [mainLoopS, scanFileS_fst] at h ⊢
    by_cases hl : 0 < (scanFile content).length
    · simp only [hl, if_true] at h
      omega
    · simp only [hl, if_false] at h ⊢
      exact ih _ h

lemma mainLoopS_mem_keys (files : List (String × Option (List Nat)))
    (path : String) :
    ∀ st, (path ∈ ((mainLoopS files st).1.map Prod.fst)
      ↔ ∃ p ∈ files, p.1 = path ∧ scanFile p.2 ≠ []) := by
  induction files with
  | nil => intro st; simp [mainLoopS]
  | cons p rest ih =>
    intro st
    obtain ⟨q, content⟩ := p
    simp only [mainLoopS, scanFileS_fst]
    by_cases hl : 0 < (scanFile content).length
    · have hne : scanFile content ≠ [] := by
        intro he; rw [he] at hl; simp at hl
      simp only [hl, if_true, List.map_cons, List.mem_cons]
      rw [ih]
      constructor
      · rintro (h | ⟨w, hw, hfst, hwne⟩)
        · exact ⟨(q, content), Or.inl rfl, h.symm, hne⟩
        · exact ⟨w, Or.inr hw, hfst, hwne⟩
      · rintro ⟨w, hw | hw, hfst, hwne⟩
        · subst hw; exact Or.inl hfst.symm
        · exact Or.inr (⟨w, hw, hfst, hwne⟩)
    · have hnil : scanFile content = [] := by
        have : (scanFile content).length = 0 := Nat.eq_zero_of_not_pos hl
        exact List.eq_nil_of_length_eq_zero this
      simp only [hl, if_false]
      rw [ih]
      constructor
      · rintro ⟨w, hw, hfst, hwne⟩
        exact ⟨w, List.mem_cons_of_mem _ hw, hfst, hwne⟩
      · rintro ⟨w, hw, hfst, hwne⟩
        rcases List.mem_cons.mp hw with hw2 | hw2
        · subst hw2; exact absurd hnil hwne
        · exact ⟨w, hw2, hfst, hwne⟩

/-! ### Helper lemmas about the per-file scanner -/

lemma jsSplitNl_ne_nil (l : List Nat) : jsSplitNl l ≠ [] := by
  cases l with
  | nil => simp [jsSplitNl]
  | cons c t =>
    simp only [jsSplitNl]
    rcases h : jsSplitNl t with _ | ⟨s, rest⟩
    · simp
    · by_cases hc : c = 10 <;> simp [hc]

lemma length_jsSplitNl (l : List Nat) :
    (jsSplitNl l).length = l.count 10 + 1 := by
  induction l with
  | nil => rfl
  | cons c t ih =>
    simp only [jsSplitNl]
    rcases h : jsSplitNl t with _ | ⟨s, rest⟩
    · exact absurd h (jsSplitNl_ne_nil t)
    · rw [h] at ih
      rw [List.count_cons]
      by_cases hc : c = 10
      · subst hc
        simp only [List.length_cons, beq_self_eq_true, if_true] at ih ⊢
        omega
      · have hbeq : (c == 10) = false := by simp [hc]
        simp only [hc, List.length_cons, hbeq, Bool.false_eq_true, if_false]
          at ih ⊢
        omega

lemma scanFrom_map_position (full : List Nat) : ∀ (rest : List Nat) (i : Nat),
    (scanFrom full rest i).map Finding.position
      = ((List.range rest.length).filter fun j => isUnsafe (rest.getD j 0)).map
          (fun j => j + i) := by
  intro rest
  induction rest with
  | nil =>
    intro i
    rfl
  | cons c t ih =>
    intro i
    have hstep : scanFrom full (c :: t) i
        = if isUnsafe c then mkFinding full c i :: scanFrom full t (i + 1)
          else scanFrom full t (i + 1) := rfl
    have hcomp : ((fun j => isUnsafe ((c :: t).getD j 0)) ∘ Nat.succ)
        = fun j => isUnsafe (t.getD j 0) := by
      funext j
      simp [List.getD_cons_succ]
    have hfun : ((fun j => j + i) ∘ Nat.succ) = fun j => j + (i + 1) := by
      funext j
      simp only [Function.comp]
      omega
    by_cases h : isUnsafe c = true
    · rw [hstep, if_pos h, List.map_cons, ih, List.length_cons,
        List.range_succ_eq_map, List.filter_cons]
      simp only [List.getD_cons_zero, h, if_true, List.map_cons,
        List.filter_map, hcomp, List.map_map, hfun]
      simp [mkFinding]
    · rw [hstep, if_neg h, ih, List.length_cons, List.range_succ_eq_map,
        List.filter_cons]
      simp only [List.getD_cons_zero, h, Bool.false_eq_true, if_false,
        List.filter_map, hcomp, List.map_map, hfun]

lemma scanContent_map_position (content : List Nat) :
    (scanContent content).map Finding.position
      = (List.range content.length).filter
          fun i => isUnsafe (content.getD i 0) := by
  have h := scanFrom_map_position content content 0
  have h0 : (fun j : Nat => j + 0) = fun j : Nat => j := by
    funext j
    omega
  rw [scanContent, h, h0, List.map_id']

lemma scanFrom_mem_shape (full : List Nat) : ∀ (rest : List Nat) (i : Nat)
    (f : Finding), f ∈ scanFrom full rest i →
      f = mkFinding full f.char f.position ∧ isUnsafe f.char = true := by
  intro rest
  induction rest with
  | nil =>
    intro i f hf
    simp [scanFrom] at hf
  | cons c t ih =>
    intro i f hf
    simp only [scanFrom] at hf
    by_cases h : isUnsafe c
    · rw [if_pos h] at hf
      rcases List.mem_cons.mp hf with hf | hf
      · subst hf
        exact ⟨rfl, h⟩
      · exact ih (i + 1) f hf
    · rw [if_neg (by simp [h])] at hf
      exact ih (i + 1) f hf

lemma utf16Encode_append (a b : List Nat) :
    utf16Encode (a ++ b) = utf16Encode a ++ utf16Encode b := by
  simp [utf16Encode]

lemma utf16Encode_length_bmp : ∀ (l : List Nat), (∀ c ∈ l, c < 65536) →
    (utf16Encode l).length = l.length := by
  intro l
  induction l with
  | nil => intro _; rfl
  | cons c t ih =>
    intro h
    have hc : c < 65536 := h c (List.mem_cons_self c t)
    have ht : ∀ x ∈ t, x < 65536 := fun x hx => h x (List.mem_cons_of_mem _ hx)
    have step : utf16Encode (c :: t) = utf16Units c ++ utf16Encode t := by
      simp [utf16Encode]
    rw [step, List.length_append, ih ht, utf16Units, if_pos hc]
    simp only [List.length_cons, List.length_nil]
    omega

lemma isUnsafe_mem {c : Nat} (h : isUnsafe c = true) : c ∈ unsafeKeys :=
  List.mem_of_elem_eq_true h

lemma isUnsafe_lt {c : Nat} (h : isUnsafe c = true) : c < 65536 :=
  (by decide : ∀ x ∈ unsafeKeys, x < 65536) c (isUnsafe_mem h)

lemma getD_append_cons (x : Nat) (B : List Nat) :
    ∀ (A : List Nat), (A ++ x :: B).getD A.length 0 = x := by
  intro A
  induction A with
  | nil => rfl
  | cons a t ih => simpa [List.getD_cons_succ] using ih

lemma jsTrim_eq_nil_iff (f : List Nat) :
    jsTrim f = [] ↔ ∀ x ∈ f, jsIsWhitespace x = true := by
  rw [jsTrim, List.reverse_eq_nil_iff, List.dropWhile_eq_nil_iff]
  constructor
  · intro h x hx
    have hsplit := List.takeWhile_append_dropWhile jsIsWhitespace f
    rw [← hsplit] at hx
    rcases List.mem_append.mp hx with hx | hx
    · exact List.mem_takeWhile_imp hx
    · exact h x (List.mem_reverse.mpr hx)
  · intro h x hx
    exact h x
      ((List.dropWhile_sublist jsIsWhitespace).subset (List.mem_reverse.mp hx))

lemma jsTrim_pos_iff (f : List Nat) :
    0 < (jsTrim f).length ↔ f.any (fun c => !jsIsWhitespace c) = true := by
  rw [List.length_pos, Ne, jsTrim_eq_nil_iff, List.any_eq_true]
  constructor
  · intro h
    rcases not_forall.mp h with ⟨x, hx⟩
    rcases Classical.not_imp.mp hx with ⟨hxf, hws⟩
    simp only [Bool.not_eq_true] at hws
    exact ⟨x, hxf, by simp [hws]⟩
  · rintro ⟨x, hxf, hws⟩ hall
    simp [hall x hxf] at hws

lemma isUnsafe_label {c : Nat} (h : isUnsafe c = true) :
    jsCodepointLabel c = specLabel c
    ∧ (UNSAFE_CHARS.lookup c).isSome = true :=
  (by decide : ∀ x ∈ unsafeKeys,
      jsCodepointLabel x = specLabel x
      ∧ (UNSAFE_CHARS.lookup x).isSome = true) c (isUnsafe_mem h)

/-! ### Claim theorems (orchestrator-level claims) -/

/-- C1: for every completed scan run, the exit status is 0 iff the total
finding count (summed over all scanned files) is 0, and otherwise it is 1. -/
theorem exit_status_iff_no_findings
    (files : List (String × Option (List Nat))) :
    (exitCode files = 0 ↔
      (files.map fun p => (scanFile p.2).length).sum = 0)
    ∧ (exitCode files = 0 ∨ exitCode files = 1) := by
  have hsum : totalFindings files
      = (files.map fun p => (scanFile p.2).length).sum :=
    mainLoopS_total_eq_sum files 0
  have hiff : exitCode files = 0 ↔ totalFindings files = 0 := by
    unfold exitCode
    by_cases h : 0 < totalFindings files
    · rw [if_pos h]
      omega
    · rw [if_neg h]
      omega
  constructor
  · rw [← hsum]
    exact hiff
  · unfold exitCode
    by_cases h : 0 < totalFindings files
    · right; rw [if_pos h]
    · left; rw [if_neg h]

/-- C4: a path is a key of the aggregated report iff scanning that file
produced at least one finding; files with zero findings (empty or
undecodable included) contribute no entry. -/
theorem report_key_iff_has_finding
    (files : List (String × Option (List Nat))) (path : String) :
    path ∈ (results files).map Prod.fst
      ↔ ∃ p ∈ files, p.1 = path ∧ scanFile p.2 ≠ [] :=
  mainLoopS_mem_keys files path 0

/-- C6: a file whose content cannot be read or decoded yields the empty
finding sequence (`scanFile` is a total Lean function, so no per-file
failure can abort the run), and removing such a file from the run changes
neither the report nor the total finding count. -/
theorem unreadable_file_skipped (path : String)
    (pre post : List (String × Option (List Nat))) :
    scanFile none = []
    ∧ (mainLoopS (pre ++ (path, none) :: post) 0).1
        = (mainLoopS (pre ++ post) 0).1
    ∧ (mainLoopS (pre ++ (path, none) :: post) 0).2.1
        = (mainLoopS (pre ++ post) 0).2.1 := by
  have key : ∀ st, (mainLoopS (pre ++ (path, none) :: post) st).1
        = (mainLoopS (pre ++ post) st).1
      ∧ (mainLoopS (pre ++ (path, none) :: post) st).2.1
        = (mainLoopS (pre ++ post) st).2.1 := by
    induction pre with
    | nil =>
      intro st
      simp [mainLoopS, scanFileS]
    | cons q rest ih =>
      intro st
      obtain ⟨qp, qc⟩ := q
      rcases ih (scanFileS qc st).2 with ⟨h1, h2⟩
      simp only [List.cons_append, mainLoopS, List.append_eq] at h1 h2 ⊢
      by_cases h : 0 < (scanFileS qc st).1.length
      · simp only [h, if_true]
        refine ⟨?_, ?_⟩ <;> simp [h1, h2]
      · simp only [h, if_false]
        exact ⟨h1, h2⟩
  exact ⟨rfl, (key 0).1, (key 0).2⟩

/-- C7: scanning is a pure function of content — the findings returned by
the stateful scanner do not depend on the inherited regex state, and two
whole runs over the same file list and contents, started from any two
regex states (in particular a first run and an immediate rerun), produce
identical reports and identical totals. -/
theorem scan_pure_and_idempotent :
    (∀ c st, (scanFileS c st).1 = scanFile c)
    ∧ (∀ (files : List (String × Option (List Nat))) st1 st2,
        (mainLoopS files st1).1 = (mainLoopS files st2).1
        ∧ (mainLoopS files st1).2.1 = (mainLoopS files st2).2.1) :=
  ⟨scanFileS_fst, fun files st1 st2 => mainLoopS_state_irrel files st1 st2⟩

/-- C8: after the loop the structured report is written exactly once, at
the fixed location, and when the total finding count is 0 the written
structure is the empty mapping. -/
theorem report_written_once
    (files : List (String × Option (List Nat))) :
    (emitWrites files).length = 1
    ∧ (emitWrites files).map Prod.fst = [reportPath]
    ∧ (totalFindings files = 0 → results files = []) :=
  ⟨rfl, rfl, fun h => mainLoopS_total_zero files 0 h⟩

/-- C8 witness: a run over the empty file list writes once, at the fixed
path, and its report is the empty mapping. -/
theorem report_written_once_zero_case :
    results ([] : List (String × Option (List Nat))) = [] :=
  (report_written_once []).2.2 rfl

/-- C9: the script's catalogue equals, entry for entry, the table given in
the specification, and its codepoints are pairwise distinct.  (It is a
top-level `def`, immutable for the process lifetime by construction.) -/
theorem catalogue_matches_spec :
    UNSAFE_CHARS = specCatalogue ∧ (UNSAFE_CHARS.map Prod.fst).Nodup :=
  ⟨rfl, by decide⟩

/-! ### Claim theorems (per-file scanner claims) -/

/-- C2: on decodable content the scan reports exactly the positions that
hold a catalogued code unit — each such position exactly once, no other
position at all (the position list equals the filtered index range) — and
the offsets are strictly increasing. -/
theorem scan_positions_exact (content : List Nat) :
    ((scanContent content).map Finding.position
        = (List.range content.length).filter
            fun i => isUnsafe (content.getD i 0))
      ∧ List.Pairwise (fun a b => a < b)
          ((scanContent content).map Finding.position) := by
  refine ⟨scanContent_map_position content, ?_⟩
  rw [scanContent_map_position content]
  exact (List.pairwise_lt_range content.length).filter _

/-- C3: every finding's line number is 1 plus the number of newline
characters strictly before its offset in the decoded content. -/
theorem finding_line_counts_newlines (content : List Nat) (f : Finding)
    (hf : f ∈ scanContent content) :
    f.line = (content.take f.position).count 10 + 1 := by
  have hs := (scanFrom_mem_shape content content 0 f hf).1
  calc f.line = (mkFinding content f.char f.position).line := by rw [← hs]
    _ = (jsSplitNl (content.take f.position)).length := rfl
    _ = (content.take f.position).count 10 + 1 := length_jsSplitNl _

/-- C3 witness: the RLO following a newline is reported on line 2, which is
1 plus the single newline before offset 1. -/
theorem finding_line_counts_newlines_case :
    (⟨8238, "U+202E", some "RLO (Right-to-Left Override)", 1, 2⟩
        : Finding).line
      = (([10, 8238] : List Nat).take 1).count 10 + 1 :=
  finding_line_counts_newlines [10, 8238]
    ⟨8238, "U+202E", some "RLO (Right-to-Left Override)", 1, 2⟩ (by decide)

/-- C5 counterexample: for the decoded content consisting of U+10000
(an astral character, two UTF-16 units) followed by U+202E, the catalogued
character's character index is 1, yet no finding carries offset 1 (the
scanner reports the code-unit offset 2 instead). -/
theorem offset_not_char_index :
    ¬ ∃ f ∈ scanContent (utf16Encode [65536, 8238]), f.position = 1 := by
  decide

/-- C5 amended: for every character of the decoded content whose codepoint
is catalogued, the scanner emits a finding whose offset is the UTF-16
code-unit index of that character — the total UTF-16 length of the
preceding characters — which coincides with the character index exactly
when every preceding character lies in the Basic Multilingual Plane. -/
theorem offset_is_utf16_index (cs : List Nat) (k : Nat) (hk : k < cs.length)
    (hu : isUnsafe (cs.getD k 0) = true) :
    (∃ f ∈ scanContent (utf16Encode cs),
        f.position = (utf16Encode (cs.take k)).length)
    ∧ ((∀ c ∈ cs.take k, c < 65536) →
        (utf16Encode (cs.take k)).length = k) := by
  have hlt : cs.getD k 0 < 65536 := isUnsafe_lt hu
  have hgk : cs.getD k 0 = cs[k] := List.getD_eq_getElem cs 0 hk
  have hsplit : utf16Encode cs
      = utf16Encode (cs.take k)
        ++ cs.getD k 0 :: utf16Encode (cs.drop (k + 1)) := by
    conv_lhs => rw [← List.take_append_drop k cs]
    rw [utf16Encode_append, List.drop_eq_getElem_cons hk, ← hgk]
    have hunit : utf16Encode (cs.getD k 0 :: cs.drop (k + 1))
        = utf16Units (cs.getD k 0) ++ utf16Encode (cs.drop (k + 1)) := by
      simp [utf16Encode]
    rw [hunit, utf16Units, if_pos hlt]
    rfl
  have hgd : (utf16Encode cs).getD (utf16Encode (cs.take k)).length 0
      = cs.getD k 0 := by
    rw [hsplit]
    exact getD_append_cons _ _ _
  have hplen : (utf16Encode (cs.take k)).length < (utf16Encode cs).length := by
    rw [hsplit, List.length_append, List.length_cons]
    omega
  have hmem : (utf16Encode (cs.take k)).length
      ∈ (scanContent (utf16Encode cs)).map Finding.position := by
    rw [scanContent_map_position, List.mem_filter]
    refine ⟨List.mem_range.mpr hplen, ?_⟩
    show isUnsafe ((utf16Encode cs).getD (utf16Encode (cs.take k)).length 0)
      = true
    rw [hgd]
    exact hu
  rcases List.mem_map.mp hmem with ⟨f, hf, hfp⟩
  refine ⟨⟨f, hf, hfp⟩, fun hbmp => ?_⟩
  rw [utf16Encode_length_bmp _ hbmp, List.length_take]
  omega

/-- C5 amended witness: in the content U+10000 followed by U+202E, the
RLO at character index 1 is reported at the UTF-16 code-unit offset
`(utf16Encode [65536]).length = 2`. -/
theorem offset_is_utf16_index_case :
    (∃ f ∈ scanContent (utf16Encode [65536, 8238]),
        f.position = (utf16Encode (([65536, 8238] : List Nat).take 1)).length)
    ∧ ((∀ c ∈ ([65536, 8238] : List Nat).take 1, c < 65536) →
        (utf16Encode (([65536, 8238] : List Nat).take 1)).length = 1) :=
  offset_is_utf16_index [65536, 8238] 1 (by decide) (by decide)

/-- C10: the orchestrator scans exactly the newline-separated segments of
the provider's output that contain a non-whitespace character, in order
(in particular the empty path is never scanned), and every finding's
codepoint label is `"U+"` plus the four-digit uppercase hex of its code
unit, with its name present in the catalogue (never absent). -/
theorem file_list_and_labels :
    (∀ output : List Nat,
      getGitFiles output
          = ((jsSplitNl output).filter fun f =>
              f.any fun c => !jsIsWhitespace c)
        ∧ [] ∉ getGitFiles output)
    ∧ ∀ (content : List Nat) (f : Finding), f ∈ scanContent content →
        f.codepoint = specLabel f.char
        ∧ f.name = UNSAFE_CHARS.lookup f.char
        ∧ (UNSAFE_CHARS.lookup f.char).isSome = true := by
  constructor
  · intro output
    have hfil : getGitFiles output
        = (jsSplitNl output).filter fun f =>
            f.any fun c => !jsIsWhitespace c := by
      rw [getGitFiles]
      apply List.filter_congr
      intro x _
      by_cases hpos : 0 < (jsTrim x).length
      · rw [decide_eq_true hpos, ((jsTrim_pos_iff x).mp hpos)]
      · rw [decide_eq_false hpos]
        have hany : ¬ (x.any fun c => !jsIsWhitespace c) = true :=
          fun ha => hpos ((jsTrim_pos_iff x).mpr ha)
        exact (Bool.eq_false_iff.mpr hany).symm
    refine ⟨hfil, fun hmem => ?_⟩
    have hpred := List.of_mem_filter hmem
    exact absurd hpred (by decide)
  · intro content f hf
    rcases scanFrom_mem_shape content content 0 f hf with ⟨hshape, hu⟩
    have hl := isUnsafe_label hu
    refine ⟨?_, ?_, hl.2⟩
    · have hcp : f.codepoint = jsCodepointLabel f.char := by
        conv_lhs => rw [hshape]
        rfl
      rw [hcp, hl.1]
    · conv_lhs => rw [hshape]
      rfl

/-- C10 witness: the single RLO finding of the content `[0x202E]` carries
the label demanded by the claim. -/
theorem file_list_and_labels_case :
    (⟨8238, "U+202E", some "RLO (Right-to-Left Override)", 0, 1⟩
        : Finding).codepoint = specLabel 8238 :=
  (file_list_and_labels.2 [8238]
    ⟨8238, "U+202E", some "RLO (Right-to-Left Override)", 0, 1⟩
    (by decide)).1
